import Mathlib

/-!
Verification of the magnet-url library (`src/lib.rs`).

The code is embedded shallowly: Rust `String`/`&str` values become `List Char`
(so that all the string primitives the library uses — `starts_with`,
`trim_start_matches`, `split`, `split_once`, `strip_prefix`, `parse::<u64>` —
are plain structural recursions the kernel can evaluate), `Option<String>`
becomes `Option (List Char)`, `u64` becomes `Nat` with the `2 ^ 64` bound made
explicit where the source's integer parsing can fail on overflow, and
`Result<Magnet, MagnetError>` becomes `Except MagnetError Magnet`.
-/

/-- Character-list strings: the representation of Rust `&str` / `String` here. -/
abbrev Str := List Char

/-- Convenience conversion from a Lean string literal to its character list. -/
def str (s : String) : Str := s.data

/-- Mirror of `enum MagnetError` in the source: the only parse failure. -/
inductive MagnetError where
  | NotAMagnetURL
deriving DecidableEq, Repr

/-- Mirror of `struct Magnet` in the source, fields in declaration order. -/
structure Magnet where
  display_name : Option Str
  hash_type : Option Str
  hash : Option Str
  length : Option Nat
  source : Option Str
  trackers : List Str
  search_keywords : Option Str
  web_seed : Option Str
  acceptable_source : Option Str
  manifest : Option Str
deriving DecidableEq, Repr

deriving instance DecidableEq for Except

/-- All-default record built at the top of `new_no_validation`. -/
def Magnet.empty : Magnet :=
  ⟨none, none, none, none, none, [], none, none, none, none⟩

/-- Embedding of Rust `str::starts_with` for a literal pattern. -/
def startsWith (s pat : Str) : Bool := pat.isPrefixOf s

/-- Fuel-indexed worker for `trimStartMatches`; the fuel bounds the number of
    strips, which is at most the length of the string when `pat` is nonempty. -/
def trimAux (pat : Str) : Nat → Str → Str
  | 0, s => s
  | fuel+1, s =>
    if !pat.isEmpty && pat.isPrefixOf s then trimAux pat fuel (s.drop pat.length) else s

/-- Embedding of Rust `str::trim_start_matches`: repeatedly strips `pat` from
    the front while it matches. -/
def trimStartMatches (pat s : Str) : Str := trimAux pat s.length s

/-- Embedding of Rust `str::split` with a `char` separator, as used in
    `split('&')`: the (always non-empty) list of pieces between occurrences. -/
def splitChar (c : Char) : Str → List Str
  | [] => [[]]
  | x :: xs =>
    match splitChar c xs with
    | [] => [[]]
    | r :: rs => if x = c then [] :: r :: rs else (x :: r) :: rs

/-- Embedding of Rust `str::split_once`: split at the first occurrence of `c`,
    `none` when `c` does not occur. -/
def splitOnce (c : Char) : Str → Option (Str × Str)
  | [] => none
  | x :: xs =>
    if x = c then some ([], xs) else (splitOnce c xs).map (fun p => (x :: p.1, p.2))

/-- Embedding of Rust `str::strip_prefix` for a literal pattern. -/
def stripPre (pat s : Str) : Option Str :=
  if pat.isPrefixOf s then some (s.drop pat.length) else none

/-- Decimal digits of `n`, least significant first, with explicit fuel. -/
def natDigitsAux : Nat → Nat → List Nat
  | 0, _ => []
  | fuel+1, n => if n = 0 then [] else n % 10 :: natDigitsAux fuel (n / 10)

/-- Decimal digits of `n`, least significant first (`[]` for `0`). -/
def natDigits (n : Nat) : List Nat := natDigitsAux n n

/-- Decimal rendering of a natural number, exactly as Rust's `Display` for
    `u64` prints it in `format!("{}&xl={}", _, len)`. -/
def natRepr (n : Nat) : Str :=
  if n = 0 then str "0" else ((natDigits n).map Nat.digitChar).reverse

/-- Model of Rust `str::parse::<u64>()` as called on the `xl` value: an
    optional leading `+`, then one or more ASCII digits, and a value below
    `2 ^ 64`; any other input (including overflow) fails. -/
def parseU64 (s : Str) : Option Nat :=
  let digitsPart := if s.head? = some '+' then s.tail else s
  if digitsPart ≠ [] ∧ digitsPart.all Char.isDigit then
    let n := digitsPart.foldl (fun acc c => acc * 10 + (c.toNat - 48)) 0
    if n < 2 ^ 64 then some n else none
  else none

/-- One iteration of the parameter loop in `new_no_validation`: split the
    fragment at the first `=` (fragments with no `=` are ignored) and dispatch
    on the key exactly as the source's `match key` does. -/
def applyParam (m : Magnet) (param : Str) : Magnet :=
  match splitOnce '=' param with
  | none => m
  | some (key, value) =>
    if key = str "dn" then { m with display_name := some value }
    else if key = str "xt" then
      match stripPre (str "urn:") value with
      | none => m
      | some urnPart =>
        match splitOnce ':' urnPart with
        | none => m
        | some (hashType, hashVal) =>
          { m with hash_type := some hashType, hash := some hashVal }
    else if key = str "xl" then
      match parseU64 value with
      | none => m
      | some len => { m with length := some len }
    else if key = str "tr" then { m with trackers := m.trackers ++ [value] }
    else if key = str "kt" then { m with search_keywords := some value }
    else if key = str "ws" then { m with web_seed := some value }
    else if key = str "xs" then { m with source := some value }
    else if key = str "as" then { m with acceptable_source := some value }
    else if key = str "mt" then { m with manifest := some value }
    else m

/-- Embedding of `Magnet::new_no_validation`: strip every leading `magnet:?`,
    split the remainder on `&`, and fold the parameter dispatch over the
    fragments starting from the all-default record. -/
def Magnet.new_no_validation (s : Str) : Magnet :=
  (splitChar '&' (trimStartMatches (str "magnet:?") s)).foldl applyParam Magnet.empty

/-- Embedding of `Magnet::new`: reject inputs that do not start with
    `magnet:?`, otherwise parse with `new_no_validation`. -/
def Magnet.new (s : Str) : Except MagnetError Magnet :=
  if startsWith s (str "magnet:?") then .ok (Magnet.new_no_validation s)
  else .error .NotAMagnetURL

/-- Helper closure `add_param` from the `Display` impl: append `&name=value`
    to `base` when the value is present, else return `base` unchanged. -/
def addParam (name : Str) (value : Option Str) (base : Str) : Str :=
  match value with
  | some val => base ++ str "&" ++ name ++ str "=" ++ val
  | none => base

/-- Embedding of `impl fmt::Display for Magnet` (what `to_string` produces). -/
def Magnet.render (m : Magnet) : Str :=
  let s0 := str "magnet:?"
  let s1 := match m.hash with
    | some h => s0 ++ str "xt=urn:" ++ m.hash_type.getD [] ++ str ":" ++ h
    | none => s0
  let s2 := addParam (str "dn") m.display_name s1
  let s3 := match m.length with
    | some len => s2 ++ str "&xl=" ++ natRepr len
    | none => s2
  let s4 := m.trackers.foldl (fun acc t => acc ++ str "&tr=" ++ t) s3
  let s5 := addParam (str "ws") m.web_seed s4
  let s6 := addParam (str "xs") m.source s5
  let s7 := addParam (str "kt") m.search_keywords s6
  let s8 := addParam (str "as") m.acceptable_source s7
  addParam (str "mt") m.manifest s8

example :
    Magnet.new (str "magnet:?xt=urn:btih:abc&dn=Sintel&tr=T1&tr=T2&xl=17") =
      .ok ⟨some (str "Sintel"), some (str "btih"), some (str "abc"), some 17,
           none, [str "T1", str "T2"], none, none, none, none⟩ := by decide

example : Magnet.new (str "https://example.com") = .error .NotAMagnetURL := by decide

example : Magnet.new (str "magnet:?") = .ok Magnet.empty := by decide

example : Magnet.new (str "magnet:?magnet:?dn=X") =
    .ok { Magnet.empty with display_name := some (str "X") } := by decide

example :
    Magnet.render ⟨some (str "D"), some (str "t"), some (str "h"), some 10, some (str "S"),
      [str "T"], some (str "K"), some (str "W"), some (str "A"), some (str "M")⟩ =
      str "magnet:?xt=urn:t:h&dn=D&xl=10&tr=T&ws=W&xs=S&kt=K&as=A&mt=M" := by decide

/-! Specification-side view of the serializer: the canonical clause sequence
    from the spec's emission table. -/

/-- Clause emitted for an optional singular field: `&name=value` when the
    value is present, nothing otherwise. -/
def paramClause (name : Str) (value : Option Str) : Str :=
  match value with
  | some val => str "&" ++ name ++ str "=" ++ val
  | none => []

/-- Combined hash clause: present exactly when `hash` is present, with the
    hash type defaulting to empty text. -/
def xtClause (m : Magnet) : Str :=
  match m.hash with
  | some h => str "xt=urn:" ++ m.hash_type.getD [] ++ str ":" ++ h
  | none => []

/-- Length clause: `&xl=<decimal>` when the length is present. -/
def xlClause (m : Magnet) : Str :=
  match m.length with
  | some len => str "&xl=" ++ natRepr len
  | none => []

/-- Tracker clauses: one `&tr=<value>` per tracker, in sequence order. -/
def trClauses (l : List Str) : Str := l.foldr (fun t acc => str "&tr=" ++ t ++ acc) []

/-- Every clause after the hash clause, in the canonical order
    dn, xl, tr*, ws, xs, kt, as, mt. -/
def tailClauses (m : Magnet) : Str :=
  paramClause (str "dn") m.display_name ++ xlClause m ++ trClauses m.trackers ++
    paramClause (str "ws") m.web_seed ++ paramClause (str "xs") m.source ++
    paramClause (str "kt") m.search_keywords ++
    paramClause (str "as") m.acceptable_source ++ paramClause (str "mt") m.manifest

example : parseU64 (str "+0012") = some 12 := by decide
example : parseU64 (str "") = none := by decide
example : parseU64 (str "1x") = none := by decide
example : natRepr 105 = str "105" := by decide

/-! Basic facts about the string primitives. -/

theorem isPrefixOf_append (p t : Str) : p.isPrefixOf (p ++ t) = true := by
  induction p with
  | nil => simp [ List.isPrefixOf]
  | cons a as ih => simp [ List.isPrefixOf, ih]

theorem isPrefixOf_length_le {p s : Str} (h : p.isPrefixOf s = true) :
    p.length ≤ s.length := by
  induction p generalizing s with
  | nil => simp
  | cons a as ih =>
    cases s with
    | nil => simp [ List.isPrefixOf] at h
    | cons b bs =>
      simp only [ List.isPrefixOf, Bool.and_eq_true] at h
      simpa using ih h.2

theorem stripPre_append (p t : Str) : stripPre p (p ++ t) = some t := by
  simp [stripPre, isPrefixOf_append, List.drop_left]

/-! Lemmas about `trimStartMatches`. -/

theorem trimAux_nil (pat : Str) (fuel : Nat) : trimAux pat fuel [] = [] := by
  cases fuel with
  | zero => rfl
  | succ n => cases pat <;> simp [trimAux, List.isPrefixOf]

theorem trimAux_fuel (pat : Str) (f1 : Nat) :
    ∀ (f2 : Nat) (s : Str), s.length ≤ f1 → s.length ≤ f2 →
      trimAux pat f1 s = trimAux pat f2 s := by
  induction f1 with
  | zero =>
    intro f2 s h1 _
    have hs : s = [] := List.eq_nil_of_length_eq_zero (Nat.le_zero.mp h1)
    subst hs
    rw [trimAux_nil, trimAux_nil]
  | succ n ih =>
    intro f2 s h1 h2
    cases f2 with
    | zero =>
      have hs : s = [] := List.eq_nil_of_length_eq_zero (Nat.le_zero.mp h2)
      subst hs
      rw [trimAux_nil, trimAux_nil]
    | succ k =>
      by_cases hc : (!pat.isEmpty && pat.isPrefixOf s) = true
      · have hc' : pat.isEmpty = false ∧ pat.isPrefixOf s = true := by
          simpa [Bool.and_eq_true, Bool.not_eq_true'] using hc
        have hne : pat ≠ [] := by
          cases pat with
          | nil => simp at hc'
          | cons a as => simp
        have hpre : pat.isPrefixOf s = true := hc'.2
        have hlen : 1 ≤ pat.length := by
          cases pat with
          | nil => exact absurd rfl hne
          | cons a as => simp
        have hshort : (s.drop pat.length).length ≤ n := by
          have := isPrefixOf_length_le hpre
          simp only [List.length_drop]
          omega
        have hshort2 : (s.drop pat.length).length ≤ k := by
          simp only [List.length_drop]
          omega
        simp only [trimAux, hc, if_true]
        exact ih k (s.drop pat.length) hshort hshort2
      · simp [trimAux, hc]

theorem trimStartMatches_of_not (pat s : Str) (h : pat.isPrefixOf s = false) :
    trimStartMatches pat s = s := by
  cases s with
  | nil => exact trimAux_nil pat 0
  | cons a as => simp [trimStartMatches, trimAux, h]

theorem trimStartMatches_append (pat t : Str) (hne : pat ≠ []) :
    trimStartMatches pat (pat ++ t) = trimStartMatches pat t := by
  have hlen : 1 ≤ pat.length := by
    cases pat with
    | nil => exact absurd rfl hne
    | cons a as => simp
  have hcond : (!pat.isEmpty && pat.isPrefixOf (pat ++ t)) = true := by
    cases pat with
    | nil => exact absurd rfl hne
    | cons a as => simp [isPrefixOf_append]
  have hform : (pat ++ t).length = (pat.length + t.length - 1) + 1 := by
    simp [List.length_append]
    omega
  unfold trimStartMatches
  rw [hform]
  simp only [trimAux, hcond, if_true, List.drop_left]
  exact trimAux_fuel pat _ t.length t (by omega) (Nat.le_refl _)

/-! Lemmas about decimal printing and `u64` parsing. -/

theorem natDigitsAux_fuel (f1 : Nat) :
    ∀ (f2 n : Nat), n ≤ f1 → n ≤ f2 → natDigitsAux f1 n = natDigitsAux f2 n := by
  induction f1 with
  | zero =>
    intro f2 n h1 _
    have hn : n = 0 := Nat.le_zero.mp h1
    subst hn
    cases f2 <;> simp [natDigitsAux]
  | succ m ih =>
    intro f2 n h1 h2
    cases f2 with
    | zero =>
      have hn : n = 0 := Nat.le_zero.mp h2
      subst hn
      simp [natDigitsAux]
    | succ k =>
      by_cases hn : n = 0
      · subst hn; simp [natDigitsAux]
      · have hlt : n / 10 < n := Nat.div_lt_self (Nat.pos_of_ne_zero hn) (by omega)
        simp only [natDigitsAux, hn, if_false]
        rw [ih k (n / 10) (by omega) (by omega)]

theorem natDigits_eq (n : Nat) :
    natDigits n = if n = 0 then [] else n % 10 :: natDigits (n / 10) := by
  by_cases hn : n = 0
  · subst hn; rfl
  · have hlt : n / 10 < n := Nat.div_lt_self (Nat.pos_of_ne_zero hn) (by omega)
    simp only [hn, if_false]
    unfold natDigits
    obtain ⟨m, rfl⟩ : ∃ m, n = m + 1 := ⟨n - 1, by omega⟩
    simp only [natDigitsAux, hn, if_false]
    rw [natDigitsAux_fuel m ((m + 1) / 10) ((m + 1) / 10) (by omega) (Nat.le_refl _)]

theorem natDigits_mem_lt (n : Nat) : ∀ d ∈ natDigits n, d < 10 := by
  induction n using Nat.strong_induction_on with
  | _ n ih =>
    intro d hd
    rw [natDigits_eq] at hd
    by_cases hn : n = 0
    · simp [hn] at hd
    · have hlt : n / 10 < n := Nat.div_lt_self (Nat.pos_of_ne_zero hn) (by omega)
      simp only [hn, if_false, List.mem_cons] at hd
      rcases hd with h | h
      · subst h; exact Nat.mod_lt n (by omega)
      · exact ih (n / 10) hlt d h

theorem natDigits_foldr (n : Nat) :
    (natDigits n).foldr (fun d acc => acc * 10 + d) 0 = n := by
  induction n using Nat.strong_induction_on with
  | _ n ih =>
    rw [natDigits_eq]
    by_cases hn : n = 0
    · simp [hn]
    · have hlt : n / 10 < n := Nat.div_lt_self (Nat.pos_of_ne_zero hn) (by omega)
      simp only [hn, if_false, List.foldr_cons]
      rw [ih (n / 10) hlt]
      omega

theorem digitChar_isDigit {d : Nat} (h : d < 10) : (Nat.digitChar d).isDigit = true := by
  interval_cases d <;> decide

theorem digitChar_toNat {d : Nat} (h : d < 10) : (Nat.digitChar d).toNat - 48 = d := by
  interval_cases d <;> decide

theorem natRepr_all_digits (n : Nat) : (natRepr n).all Char.isDigit = true := by
  unfold natRepr
  by_cases hn : n = 0
  · simp [hn]
    decide
  · simp only [hn, if_false, List.all_eq_true, List.mem_reverse, List.mem_map]
    rintro c ⟨d, hd, rfl⟩
    exact digitChar_isDigit (natDigits_mem_lt n d hd)

theorem natRepr_ne_nil (n : Nat) : natRepr n ≠ [] := by
  unfold natRepr
  by_cases hn : n = 0
  · simp [hn, str]
  · have hne : natDigits n ≠ [] := by
      rw [natDigits_eq]
      simp [hn]
    simp only [hn, if_false, ne_eq, List.reverse_eq_nil_iff, List.map_eq_nil_iff]
    exact hne

theorem foldr_digitChar (L : List Nat) (h : ∀ d ∈ L, d < 10) :
    (L.map Nat.digitChar).foldr (fun c acc => acc * 10 + (c.toNat - 48)) 0 =
      L.foldr (fun d acc => acc * 10 + d) 0 := by
  induction L with
  | nil => rfl
  | cons d ds ih =>
    simp only [List.map_cons, List.foldr_cons]
    rw [ih (fun x hx => h x (List.mem_cons_of_mem d hx)),
      digitChar_toNat (h d (List.mem_cons_self d ds))]

theorem parseU64_natRepr {n : Nat} (h : n < 2 ^ 64) : parseU64 (natRepr n) = some n := by
  by_cases hn : n = 0
  · subst hn; decide
  · have hdig : (natRepr n).all Char.isDigit = true := natRepr_all_digits n
    have hne : natRepr n ≠ [] := natRepr_ne_nil n
    have hhead : ¬((natRepr n).head? = some '+') := by
      intro hplus
      have hmem : '+' ∈ natRepr n := by
        cases hs : natRepr n with
        | nil => exact absurd hs hne
        | cons c cs =>
          rw [hs] at hplus
          simp at hplus
          simp [hs, hplus]
      have := (List.all_eq_true.mp hdig) '+' hmem
      simp at this
    unfold parseU64
    simp only [hhead, if_false, hne, hdig, and_true, ne_eq, not_false_iff, if_true]
    have hfold : (natRepr n).foldl (fun acc c => acc * 10 + (c.toNat - 48)) 0 = n := by
      unfold natRepr
      simp only [hn, if_false]
      rw [List.foldl_reverse, foldr_digitChar _ (natDigits_mem_lt n), natDigits_foldr]
    rw [hfold, if_pos h]

/-! Lemmas about `splitChar` and `splitOnce`. -/

theorem splitChar_ne_nil (c : Char) (s : Str) : splitChar c s ≠ [] := by
  cases s with
  | nil => simp [splitChar]
  | cons x xs =>
    simp only [splitChar]
    rcases splitChar c xs with _ | ⟨r, rs⟩
    · simp
    · by_cases h : x = c <;> simp [h]

theorem splitChar_of_not_mem (c : Char) (s : Str) (h : c ∉ s) : splitChar c s = [s] := by
  induction s with
  | nil => rfl
  | cons x xs ih =>
    have hx : ¬(x = c) := fun he => h (he ▸ List.mem_cons_self x xs)
    have hxs : c ∉ xs := fun hm => h (List.mem_cons_of_mem x hm)
    simp only [splitChar, ih hxs, hx, if_false]

theorem splitChar_append_cons (c : Char) (a b : Str) (h : c ∉ a) :
    splitChar c (a ++ c :: b) = a :: splitChar c b := by
  induction a with
  | nil =>
    simp only [List.nil_append, splitChar]
    rcases hs : splitChar c b with _ | ⟨r, rs⟩
    · exact absurd hs (splitChar_ne_nil c b)
    · simp
  | cons x xs ih =>
    have hx : ¬(x = c) := fun he => h (he ▸ List.mem_cons_self x xs)
    have hxs : c ∉ xs := fun hm => h (List.mem_cons_of_mem x hm)
    have expand : splitChar c ((x :: xs) ++ c :: b) =
        match splitChar c (xs ++ c :: b) with
        | [] => [[]]
        | r :: rs => if x = c then [] :: r :: rs else (x :: r) :: rs := rfl
    rw [expand, ih hxs]
    simp [hx]

theorem splitOnce_of_not_mem (c : Char) (s : Str) (h : c ∉ s) : splitOnce c s = none := by
  induction s with
  | nil => rfl
  | cons x xs ih =>
    have hx : ¬(x = c) := fun he => h (he ▸ List.mem_cons_self x xs)
    have hxs : c ∉ xs := fun hm => h (List.mem_cons_of_mem x hm)
    simp [splitOnce, hx, ih hxs]

theorem splitOnce_append (c : Char) (a b : Str) (h : c ∉ a) :
    splitOnce c (a ++ c :: b) = some (a, b) := by
  induction a with
  | nil => simp [splitOnce]
  | cons x xs ih =>
    have hx : ¬(x = c) := fun he => h (he ▸ List.mem_cons_self x xs)
    have hxs : c ∉ xs := fun hm => h (List.mem_cons_of_mem x hm)
    simp [splitOnce, hx, ih hxs]

/-! Specification-side view of the parameter dispatch: what a single fragment
    contributes to each field, following the spec's key table. -/

/-- Value a fragment carries for the singular key `k`: requires a `=` and the
    exact key, `none` otherwise. -/
def keyVal (k : Str) (p : Str) : Option Str :=
  match splitOnce '=' p with
  | some kv => if kv.1 = k then some kv.2 else none
  | none => none

/-- Pair (hash_type, hash) a fragment contributes: requires key `xt`, the
    `urn:` marker and a further `:` in the value. -/
def xtHit (p : Str) : Option (Str × Str) :=
  match splitOnce '=' p with
  | some kv =>
    if kv.1 = str "xt" then
      match stripPre (str "urn:") kv.2 with
      | some u => splitOnce ':' u
      | none => none
    else none
  | none => none

/-- Length a fragment contributes: requires key `xl` and a parseable value. -/
def xlHit (p : Str) : Option Nat :=
  match splitOnce '=' p with
  | some kv => if kv.1 = str "xl" then parseU64 kv.2 else none
  | none => none

/-- Contribution of the last fragment (in left-to-right order) that has an
    effective contribution under `hit`. -/
def lastHit {α : Type} (hit : Str → Option α) (ps : List Str) : Option α :=
  ps.foldl (fun acc p => match hit p with | some v => some v | none => acc) none

/-- Per-field characterisation of one step of the parameter loop. -/
theorem applyParam_char (m : Magnet) (p : Str) :
    applyParam m p =
      { display_name := match keyVal (str "dn") p with
          | some v => some v | none => m.display_name
        hash_type := match xtHit p with
          | some th => some th.1 | none => m.hash_type
        hash := match xtHit p with
          | some th => some th.2 | none => m.hash
        length := match xlHit p with
          | some n => some n | none => m.length
        source := match keyVal (str "xs") p with
          | some v => some v | none => m.source
        trackers := m.trackers ++ (keyVal (str "tr") p).toList
        search_keywords := match keyVal (str "kt") p with
          | some v => some v | none => m.search_keywords
        web_seed := match keyVal (str "ws") p with
          | some v => some v | none => m.web_seed
        acceptable_source := match keyVal (str "as") p with
          | some v => some v | none => m.acceptable_source
        manifest := match keyVal (str "mt") p with
          | some v => some v | none => m.manifest } := by
  simp only [applyParam, keyVal, xtHit, xlHit]
  rcases hsp : splitOnce '=' p with _ | ⟨k, v⟩
  · simp
  · simp only
    by_cases h1 : k = str "dn"
    · subst h1; simp +decide
    · by_cases h2 : k = str "xt"
      · subst h2
        simp only [h1, if_false, if_true, reduceIte]
        rcases hstrip : stripPre (str "urn:") v with _ | u
        · simp +decide [hstrip]
        · rcases hco : splitOnce ':' u with _ | ⟨t, hsh⟩
          · simp +decide [hstrip, hco]
          · simp +decide [hstrip, hco]
      · by_cases h3 : k = str "xl"
        · subst h3
          rcases hpl : parseU64 v with _ | n
          · simp +decide [hpl]
          · simp +decide [hpl]
        · by_cases h4 : k = str "tr"
          · subst h4; simp +decide
          · by_cases h5 : k = str "kt"
            · subst h5; simp +decide
            · by_cases h6 : k = str "ws"
              · subst h6; simp +decide
              · by_cases h7 : k = str "xs"
                · subst h7; simp +decide
                · by_cases h8 : k = str "as"
                  · subst h8; simp +decide
                  · by_cases h9 : k = str "mt"
                    · subst h9; simp +decide
                    · simp [h1, h2, h3, h4, h5, h6, h7, h8, h9]

theorem lastHit_append {α : Type} (hit : Str → Option α) (ps : List Str) (p : Str) :
    lastHit hit (ps ++ [p]) =
      match hit p with
      | some v => some v
      | none => lastHit hit ps := by
  unfold lastHit
  rw [List.foldl_append]
  rfl

/-- Per-field characterisation of the whole parameter loop: each singular field
    holds the contribution of the last effective fragment for its key, and the
    trackers accumulate every `tr` value in order. -/
theorem foldl_applyParam (ps : List Str) (m : Magnet) :
    ps.foldl applyParam m =
      { display_name := match lastHit (keyVal (str "dn")) ps with
          | some v => some v | none => m.display_name
        hash_type := match lastHit xtHit ps with
          | some th => some th.1 | none => m.hash_type
        hash := match lastHit xtHit ps with
          | some th => some th.2 | none => m.hash
        length := match lastHit xlHit ps with
          | some n => some n | none => m.length
        source := match lastHit (keyVal (str "xs")) ps with
          | some v => some v | none => m.source
        trackers := m.trackers ++ ps.filterMap (keyVal (str "tr"))
        search_keywords := match lastHit (keyVal (str "kt")) ps with
          | some v => some v | none => m.search_keywords
        web_seed := match lastHit (keyVal (str "ws")) ps with
          | some v => some v | none => m.web_seed
        acceptable_source := match lastHit (keyVal (str "as")) ps with
          | some v => some v | none => m.acceptable_source
        manifest := match lastHit (keyVal (str "mt")) ps with
          | some v => some v | none => m.manifest } := by
  induction ps using List.reverseRecOn with
  | nil => simp [lastHit]
  | append_singleton ps p ih =>
    rw [List.foldl_append]
    simp only [List.foldl_cons, List.foldl_nil]
    rw [ih, applyParam_char]
    simp only [lastHit_append, List.filterMap_append]
    rw [Magnet.mk.injEq]
    refine ⟨?_, ?_, ?_, ?_, ?_, ?_, ?_, ?_, ?_, ?_⟩
    · rcases keyVal (str "dn") p with _ | v <;> simp
    · rcases xtHit p with _ | th <;> simp
    · rcases xtHit p with _ | th <;> simp
    · rcases xlHit p with _ | n <;> simp
    · rcases keyVal (str "xs") p with _ | v <;> simp
    · rcases htr : keyVal (str "tr") p with _ | v <;> simp [htr, List.filterMap_cons]
    · rcases keyVal (str "kt") p with _ | v <;> simp
    · rcases keyVal (str "ws") p with _ | v <;> simp
    · rcases keyVal (str "as") p with _ | v <;> simp
    · rcases keyVal (str "mt") p with _ | v <;> simp

theorem splitOnce_eq_takeWhile (c : Char) (s : Str) (h : c ∈ s) :
    splitOnce c s = some (s.takeWhile (fun x => x ≠ c), (s.dropWhile (fun x => x ≠ c)).tail) := by
  induction s with
  | nil => simp at h
  | cons x xs ih =>
    by_cases hx : x = c
    · subst hx
      simp [splitOnce, List.takeWhile, List.dropWhile]
    · have hm : c ∈ xs := by
        rcases List.mem_cons.mp h with h1 | h1
        · exact absurd h1.symm hx
        · exact h1
      simp [splitOnce, hx, ih hm, List.takeWhile, List.dropWhile]

/-! Lemmas about the serializer. -/

theorem addParam_eq (name : Str) (value : Option Str) (base : Str) :
    addParam name value base = base ++ paramClause name value := by
  cases value <;> simp [addParam, paramClause]

theorem foldl_tr (l : List Str) (s : Str) :
    l.foldl (fun acc t => acc ++ str "&tr=" ++ t) s = s ++ trClauses l := by
  induction l generalizing s with
  | nil => simp [trClauses]
  | cons t ts ih =>
    rw [List.foldl_cons, ih]
    simp [trClauses, List.append_assoc]

theorem foldl_tr_assoc (l : List Str) (s : Str) :
    l.foldl (fun acc t => acc ++ (str "&tr=" ++ t)) s = s ++ trClauses l := by
  have he : (fun (acc t : Str) => acc ++ (str "&tr=" ++ t)) =
      fun acc t => acc ++ str "&tr=" ++ t := by
    funext acc t
    simp [List.append_assoc]
  rw [he, foldl_tr]

/-- The serializer output is exactly the literal scheme marker followed by the
    canonical clause sequence. -/
theorem render_eq (m : Magnet) :
    m.render = str "magnet:?" ++ xtClause m ++ tailClauses m := by
  rcases hh : m.hash with _ | h <;> rcases hl : m.length with _ | len <;>
    simp [Magnet.render, tailClauses, xtClause, xlClause, hh, hl, addParam_eq,
      foldl_tr, foldl_tr_assoc, List.append_assoc]

/-! Fragment decomposition of a serialized record, for the round-trip claims. -/

/-- Concatenation of fragments, each preceded by a `&` separator. -/
def prefAmp (fs : List Str) : Str := fs.foldr (fun f acc => '&' :: f ++ acc) []

theorem splitChar_prefixed (fs : List Str) (h : ∀ f ∈ fs, '&' ∉ f) :
    ∀ (a : Str), '&' ∉ a → splitChar '&' (a ++ prefAmp fs) = a :: fs := by
  induction fs with
  | nil =>
    intro a ha
    simpa [prefAmp] using splitChar_of_not_mem '&' a ha
  | cons f fs ih =>
    intro a ha
    have hf : '&' ∉ f := h f (List.mem_cons_self f fs)
    have hfs : ∀ g ∈ fs, '&' ∉ g := fun g hg => h g (List.mem_cons_of_mem f hg)
    rw [show prefAmp (f :: fs) = '&' :: (f ++ prefAmp fs) from rfl,
      splitChar_append_cons '&' a _ ha, ih hfs f hf]

theorem prefAmp_tr (ts : List Str) (tail : List Str) :
    prefAmp (ts.map (fun t => str "tr=" ++ t) ++ tail) = trClauses ts ++ prefAmp tail := by
  induction ts with
  | nil => simp [trClauses]
  | cons t ts ih =>
    have hstep : prefAmp ((str "tr=" ++ t) :: (ts.map (fun t => str "tr=" ++ t) ++ tail)) =
        '&' :: ((str "tr=" ++ t) ++ prefAmp (ts.map (fun t => str "tr=" ++ t) ++ tail)) := rfl
    simp only [List.map_cons, List.cons_append]
    rw [hstep, ih]
    show '&' :: (str "tr=" ++ t ++ (trClauses ts ++ prefAmp tail)) =
      trClauses (t :: ts) ++ prefAmp tail
    simp only [trClauses, List.foldr_cons, List.append_assoc]
    rfl

/-! Computation rules for the dispatch on concrete keys. -/

theorem applyParam_dn (m : Magnet) (v : Str) :
    applyParam m (str "dn=" ++ v) = { m with display_name := some v } := rfl

theorem applyParam_tr (m : Magnet) (v : Str) :
    applyParam m (str "tr=" ++ v) = { m with trackers := m.trackers ++ [v] } := rfl

theorem applyParam_kt (m : Magnet) (v : Str) :
    applyParam m (str "kt=" ++ v) = { m with search_keywords := some v } := rfl

theorem applyParam_ws (m : Magnet) (v : Str) :
    applyParam m (str "ws=" ++ v) = { m with web_seed := some v } := rfl

theorem applyParam_xs (m : Magnet) (v : Str) :
    applyParam m (str "xs=" ++ v) = { m with source := some v } := rfl

theorem applyParam_asrc (m : Magnet) (v : Str) :
    applyParam m (str "as=" ++ v) = { m with acceptable_source := some v } := rfl

theorem applyParam_mt (m : Magnet) (v : Str) :
    applyParam m (str "mt=" ++ v) = { m with manifest := some v } := rfl

theorem applyParam_xl (m : Magnet) (v : Str) :
    applyParam m (str "xl=" ++ v) =
      match parseU64 v with
      | none => m
      | some n => { m with length := some n } := rfl

theorem applyParam_xt (m : Magnet) (v : Str) :
    applyParam m (str "xt=" ++ v) =
      match stripPre (str "urn:") v with
      | none => m
      | some u =>
        match splitOnce ':' u with
        | none => m
        | some (hashType, hashVal) =>
          { m with hash_type := some hashType, hash := some hashVal } := rfl

theorem applyParam_xl_good (m : Magnet) (len : Nat) (hlen : len < 2 ^ 64) :
    applyParam m (str "xl=" ++ natRepr len) = { m with length := some len } := by
  rw [applyParam_xl, parseU64_natRepr hlen]

theorem applyParam_xt_good (m : Magnet) (t h : Str) (hct : ':' ∉ t) :
    applyParam m (str "xt=urn:" ++ t ++ str ":" ++ h) =
      { m with hash_type := some t, hash := some h } := by
  have he : str "xt=urn:" ++ t ++ str ":" ++ h = str "xt=" ++ (str "urn:" ++ (t ++ ':' :: h)) := by
    simp only [List.append_assoc]
    rfl
  rw [he, applyParam_xt, stripPre_append]
  simp [splitOnce_append ':' t h hct]

theorem foldl_applyParam_tr (ts : List Str) (m : Magnet) :
    (ts.map (fun t => str "tr=" ++ t)).foldl applyParam m =
      { m with trackers := m.trackers ++ ts } := by
  induction ts generalizing m with
  | nil => simp
  | cons t ts ih =>
    simp only [List.map_cons, List.foldl_cons]
    rw [applyParam_tr, ih]
    simp [List.append_assoc]

/-- Concatenation of `n` copies of a pattern, for the repeated-marker claim. -/
def repCat : Nat → Str → Str
  | 0, _ => []
  | n+1, p => p ++ repCat n p

/-! The claims. -/

/-- C2: `Magnet.new` returns `NotAMagnetURL` exactly on inputs that do not
    start with `magnet:?`; whenever the marker is present parsing succeeds,
    and the bare marker (empty remainder) parses to the all-default record. -/
theorem C2_prefix_rejection :
    (∀ s : Str, Magnet.new s = .error .NotAMagnetURL ↔
      startsWith s (str "magnet:?") = false) ∧
    (∀ s : Str, startsWith s (str "magnet:?") = true → ∃ m, Magnet.new s = .ok m) ∧
    Magnet.new (str "magnet:?") = .ok Magnet.empty := by
  refine ⟨fun s => ?_, fun s h => ⟨Magnet.new_no_validation s, by simp [Magnet.new, h]⟩,
    by decide⟩
  unfold Magnet.new
  rcases hb : startsWith s (str "magnet:?") <;> simp [hb]

/-- C2 witness: a prefixed input with junk remainder still parses. -/
theorem C2_witness :
    startsWith (str "magnet:?junk") (str "magnet:?") = true ∧
      ∃ m, Magnet.new (str "magnet:?junk") = .ok m :=
  ⟨by decide, C2_prefix_rejection.2.1 (str "magnet:?junk") (by decide)⟩

/-- C3: the serializer emits exactly `magnet:?`, then the hash clause only if
    the hash is present, then the dn, xl, tr (one per tracker, in order), ws,
    xs, kt, as, mt clauses in that fixed order; absent fields contribute
    nothing and every value passes through verbatim. -/
theorem C3_canonical_order (m : Magnet) :
    m.render = str "magnet:?" ++ xtClause m ++
      (paramClause (str "dn") m.display_name ++ xlClause m ++ trClauses m.trackers ++
        paramClause (str "ws") m.web_seed ++ paramClause (str "xs") m.source ++
        paramClause (str "kt") m.search_keywords ++
        paramClause (str "as") m.acceptable_source ++
        paramClause (str "mt") m.manifest) := by
  rw [render_eq]
  rfl

/-- C5: the combined hash clause is emitted exactly when `hash` is present
    (a `hash_type` alone is never serialized), and with the hash present but
    the type absent the clause degenerates to `xt=urn::<hash>`. -/
theorem C5_paired_hash (m : Magnet) :
    m.render = (match m.hash, m.hash_type with
      | none, _ => str "magnet:?" ++ tailClauses m
      | some h, none => str "magnet:?xt=urn::" ++ (h ++ tailClauses m)
      | some h, some t =>
          str "magnet:?xt=urn:" ++ (t ++ (str ":" ++ (h ++ tailClauses m)))) := by
  rw [render_eq]
  rcases hh : m.hash with _ | h <;> rcases ht : m.hash_type with _ | t <;>
    simp only [xtClause, hh, ht, Option.getD_some, Option.getD_none, List.append_assoc,
      List.append_nil, List.nil_append] <;> rfl

/-- C8: the concrete Sintel scenario parses to exactly the stated record. -/
theorem C8_concrete :
    Magnet.new (str "magnet:?xt=urn:btih:08ada5a7a6183aae1e09d831df6748d566095a10&dn=Sintel&tr=udp%3A%2F%2Fexplodie.org%3A6969") =
      .ok ⟨some (str "Sintel"), some (str "btih"),
        some (str "08ada5a7a6183aae1e09d831df6748d566095a10"), none, none,
        [str "udp%3A%2F%2Fexplodie.org%3A6969"], none, none, none, none⟩ := by
  decide

/-- C10: serializer output always begins with `magnet:?`, so reparsing any
    rendered record succeeds (without necessarily reproducing the record). -/
theorem C10_reparseable (m : Magnet) :
    startsWith m.render (str "magnet:?") = true ∧
      ∃ r, Magnet.new m.render = .ok r := by
  have hp : startsWith m.render (str "magnet:?") = true := by
    rw [render_eq]
    unfold startsWith
    rw [List.append_assoc]
    exact isPrefixOf_append (str "magnet:?") (xtClause m ++ tailClauses m)
  exact ⟨hp, Magnet.new_no_validation m.render, by simp [Magnet.new, hp]⟩

/-- C6 counterexample: the failing final `xl` fragment is ignored but does not
    leave the length absent — the earlier `xl=7` value survives. -/
theorem C6_counterexample :
    parseU64 (str "zz") = none ∧
      Magnet.new (str "magnet:?xl=7&xl=zz") =
        .ok { Magnet.empty with length := some 7 } :=
  ⟨by decide, by decide⟩

/-- C6 amended: an `xl` fragment whose value fails to parse as an unsigned
    integer is silently ignored, leaving the record (hence the length field)
    unchanged — so absent unless an earlier fragment set it — and the parse
    still succeeds; a parsing value is stored as the length. -/
theorem C6_xl_amended (v : Str) (m : Magnet) :
    applyParam m (str "xl=" ++ v) =
      (match parseU64 v with
       | none => m
       | some n => { m with length := some n }) ∧
    (v.all (fun c => c ≠ '&') = true →
      Magnet.new (str "magnet:?xl=" ++ v) =
        .ok (match parseU64 v with
             | none => Magnet.empty
             | some n => { Magnet.empty with length := some n })) := by
  refine ⟨applyParam_xl m v, fun hv => ?_⟩
  have hpre : str "magnet:?xl=" ++ v = str "magnet:?" ++ (str "xl=" ++ v) := rfl
  have hsw : startsWith (str "magnet:?xl=" ++ v) (str "magnet:?") = true := by
    rw [hpre]
    exact isPrefixOf_append _ _
  have hnp : (str "magnet:?").isPrefixOf (str "xl=" ++ v) = false := rfl
  have hna : '&' ∉ str "xl=" ++ v := by
    intro hmem
    rcases List.mem_append.mp hmem with h1 | h1
    · revert h1
      decide
    · have h2 := List.all_eq_true.mp hv '&' h1
      simp at h2
  simp only [Magnet.new, hsw, if_true, Magnet.new_no_validation]
  rw [hpre, trimStartMatches_append _ _ (by decide), trimStartMatches_of_not _ _ hnp,
    splitChar_of_not_mem '&' _ hna]
  simp only [List.foldl_cons, List.foldl_nil]
  rw [applyParam_xl]

/-- C6 witness: the amended statement at the failing value `zz`. -/
theorem C6_witness :
    (str "zz").all (fun c => c ≠ '&') = true ∧
      Magnet.new (str "magnet:?xl=" ++ str "zz") = .ok Magnet.empty :=
  ⟨by decide, (C6_xl_amended (str "zz") Magnet.empty).2 (by decide)⟩

/-- C7: an `xt` fragment whose value starts with `urn:` and has a further `:`
    afterwards stores the pieces around the first such `:` as hash type and
    hash; otherwise it assigns neither field (earlier values stay in place);
    and an input consisting of the marker and an `xt` fragment always parses
    successfully. -/
theorem C7_xt_dispatch (v : Str) (m : Magnet) :
    applyParam m (str "xt=" ++ v) =
      (if (str "urn:").isPrefixOf v = true ∧ ':' ∈ v.drop 4 then
        { m with
          hash_type := some ((v.drop 4).takeWhile (fun c => c ≠ ':')),
          hash := some (((v.drop 4).dropWhile (fun c => c ≠ ':')).tail) }
       else m) ∧
    (Magnet.new (str "magnet:?xt=" ++ v)).isOk = true := by
  constructor
  · rw [applyParam_xt]
    unfold stripPre
    by_cases hp : (str "urn:").isPrefixOf v = true
    · rw [if_pos hp]
      simp only [show ((str "urn:").length : Nat) = 4 from rfl]
      by_cases hm : ':' ∈ v.drop 4
      · rw [splitOnce_eq_takeWhile ':' _ hm, if_pos ⟨hp, hm⟩]
      · rw [splitOnce_of_not_mem ':' _ hm, if_neg (fun hc => hm hc.2)]
    · rw [if_neg hp, if_neg (fun hc => hp hc.1)]
  · have hsw : startsWith (str "magnet:?xt=" ++ v) (str "magnet:?") = true := by
      have hpre : str "magnet:?xt=" ++ v = str "magnet:?" ++ (str "xt=" ++ v) := rfl
      rw [hpre]
      exact isPrefixOf_append _ _
    simp [Magnet.new, hsw, Except.isOk, Except.toBool]

/-- C9: the parser strips every leading repetition of `magnet:?`, so only the
    first remainder that does not itself begin with the marker is split into
    parameter fragments. -/
theorem C9_repeated_marker (n : Nat) (rem : Str)
    (h1 : 1 ≤ n) (h2 : startsWith rem (str "magnet:?") = false) :
    Magnet.new (repCat n (str "magnet:?") ++ rem) =
      .ok ((splitChar '&' rem).foldl applyParam Magnet.empty) := by
  have htrim : ∀ k : Nat,
      trimStartMatches (str "magnet:?") (repCat k (str "magnet:?") ++ rem) = rem := by
    intro k
    induction k with
    | zero =>
      simpa [repCat] using trimStartMatches_of_not (str "magnet:?") rem h2
    | succ k ih =>
      have hsplit : repCat (k + 1) (str "magnet:?") ++ rem =
          str "magnet:?" ++ (repCat k (str "magnet:?") ++ rem) := by
        simp [repCat, List.append_assoc]
      rw [hsplit, trimStartMatches_append _ _ (by decide), ih]
  have hsw : startsWith (repCat n (str "magnet:?") ++ rem) (str "magnet:?") = true := by
    obtain ⟨k, rfl⟩ : ∃ k, n = k + 1 := ⟨n - 1, by omega⟩
    have hsplit : repCat (k + 1) (str "magnet:?") ++ rem =
        str "magnet:?" ++ (repCat k (str "magnet:?") ++ rem) := by
      simp [repCat, List.append_assoc]
    rw [hsplit]
    exact isPrefixOf_append _ _
  simp only [Magnet.new, hsw, if_true, Magnet.new_no_validation, htrim n]

/-- C9 witness: a doubled marker still yields the display name. -/
theorem C9_witness :
    startsWith (str "dn=X") (str "magnet:?") = false ∧
      Magnet.new (repCat 2 (str "magnet:?") ++ str "dn=X") =
        .ok { Magnet.empty with display_name := some (str "X") } := by
  refine ⟨by decide, ?_⟩
  have h := C9_repeated_marker 2 (str "dn=X") (by decide) (by decide)
  exact h.trans (by decide)

/-- C4 counterexample: the final `xl` occurrence has an unparseable value, yet
    the stored length is the one set by the earlier occurrence — the final
    occurrence does not determine the stored value. -/
theorem C4_counterexample :
    parseU64 (str "x") = none ∧
      Magnet.new (str "magnet:?xl=5&xl=x") =
        .ok { Magnet.empty with length := some 5 } :=
  ⟨by decide, by decide⟩

/-- C4 amended: for a prefixed input, each plain-text singular field (dn, kt,
    ws, xs, as, mt) holds the value of the last fragment with its key; length
    holds the last `xl` value that parses as an unsigned integer; hash type
    and hash come from the last well-formed `xt` fragment; only `tr`
    accumulates, with every value kept in input order, duplicates included. -/
theorem C4_last_effective (s : Str) (h : startsWith s (str "magnet:?") = true) :
    Magnet.new s =
      .ok { display_name :=
              lastHit (keyVal (str "dn")) (splitChar '&' (trimStartMatches (str "magnet:?") s))
            hash_type :=
              (lastHit xtHit (splitChar '&' (trimStartMatches (str "magnet:?") s))).map Prod.fst
            hash :=
              (lastHit xtHit (splitChar '&' (trimStartMatches (str "magnet:?") s))).map Prod.snd
            length :=
              lastHit xlHit (splitChar '&' (trimStartMatches (str "magnet:?") s))
            source :=
              lastHit (keyVal (str "xs")) (splitChar '&' (trimStartMatches (str "magnet:?") s))
            trackers :=
              (splitChar '&' (trimStartMatches (str "magnet:?") s)).filterMap (keyVal (str "tr"))
            search_keywords :=
              lastHit (keyVal (str "kt")) (splitChar '&' (trimStartMatches (str "magnet:?") s))
            web_seed :=
              lastHit (keyVal (str "ws")) (splitChar '&' (trimStartMatches (str "magnet:?") s))
            acceptable_source :=
              lastHit (keyVal (str "as")) (splitChar '&' (trimStartMatches (str "magnet:?") s))
            manifest :=
              lastHit (keyVal (str "mt")) (splitChar '&' (trimStartMatches (str "magnet:?") s)) } := by
  simp only [Magnet.new, h, if_true, Magnet.new_no_validation]
  rw [foldl_applyParam]
  rw [Except.ok.injEq, Magnet.mk.injEq]
  refine ⟨?_, ?_, ?_, ?_, ?_, ?_, ?_, ?_, ?_, ?_⟩
  · rcases lastHit (keyVal (str "dn")) (splitChar '&' (trimStartMatches (str "magnet:?") s))
      with _ | v <;> simp [Magnet.empty]
  · rcases lastHit xtHit (splitChar '&' (trimStartMatches (str "magnet:?") s))
      with _ | th <;> simp [Magnet.empty]
  · rcases lastHit xtHit (splitChar '&' (trimStartMatches (str "magnet:?") s))
      with _ | th <;> simp [Magnet.empty]
  · rcases lastHit xlHit (splitChar '&' (trimStartMatches (str "magnet:?") s))
      with _ | n <;> simp [Magnet.empty]
  · rcases lastHit (keyVal (str "xs")) (splitChar '&' (trimStartMatches (str "magnet:?") s))
      with _ | v <;> simp [Magnet.empty]
  · simp [Magnet.empty]
  · rcases lastHit (keyVal (str "kt")) (splitChar '&' (trimStartMatches (str "magnet:?") s))
      with _ | v <;> simp [Magnet.empty]
  · rcases lastHit (keyVal (str "ws")) (splitChar '&' (trimStartMatches (str "magnet:?") s))
      with _ | v <;> simp [Magnet.empty]
  · rcases lastHit (keyVal (str "as")) (splitChar '&' (trimStartMatches (str "magnet:?") s))
      with _ | v <;> simp [Magnet.empty]
  · rcases lastHit (keyVal (str "mt")) (splitChar '&' (trimStartMatches (str "magnet:?") s))
      with _ | v <;> simp [Magnet.empty]

/-- C4 witness: a prefixed input with repeated singular keys, a failing final
    `xl`, a malformed final `xt` and two trackers, parsed as amended. -/
theorem C4_witness :
    startsWith (str "magnet:?dn=a&dn=b&xl=5&xl=x&tr=1&tr=2&xt=urn:t:h&xt=zz")
        (str "magnet:?") = true ∧
      Magnet.new (str "magnet:?dn=a&dn=b&xl=5&xl=x&tr=1&tr=2&xt=urn:t:h&xt=zz") =
        .ok ⟨some (str "b"), some (str "t"), some (str "h"), some 5, none,
          [str "1", str "2"], none, none, none, none⟩ := by
  refine ⟨by decide, ?_⟩
  have h := C4_last_effective (str "magnet:?dn=a&dn=b&xl=5&xl=x&tr=1&tr=2&xt=urn:t:h&xt=zz")
    (by decide)
  exact h.trans (by decide)

/-- C1 counterexample: a fully-populated record whose display name contains
    `&dn=` does not survive the round trip — every singular field is present
    and the tracker list is non-empty, yet reparsing the rendered string does
    not return the record. -/
theorem C1_counterexample :
    Magnet.new (Magnet.render ⟨some (str "A&dn=B"), some (str "t"), some (str "h"),
        some 1, some (str "S"), [str "T"], some (str "K"), some (str "W"),
        some (str "C"), some (str "M")⟩) ≠
      .ok ⟨some (str "A&dn=B"), some (str "t"), some (str "h"), some 1, some (str "S"),
        [str "T"], some (str "K"), some (str "W"), some (str "C"), some (str "M")⟩ := by
  decide

theorem not_mem_append {c : Char} {a b : Str} (ha : c ∉ a) (hb : c ∉ b) :
    c ∉ a ++ b := by
  intro hm
  rcases List.mem_append.mp hm with h | h
  · exact ha h
  · exact hb h

theorem not_amp_natRepr (n : Nat) : '&' ∉ natRepr n := by
  intro hm
  have h := List.all_eq_true.mp (natRepr_all_digits n) '&' hm
  exact absurd h (by decide)

theorem prefAmp_cons (f : Str) (l : List Str) :
    prefAmp (f :: l) = '&' :: (f ++ prefAmp l) := rfl

theorem prefAmp_nil : prefAmp [] = [] := rfl

/-- C1 amended: a fully-populated record with a non-empty tracker list does
    round-trip, provided no stored text value contains the fragment separator
    `&`, the hash type contains no `:`, and the length fits in a `u64` (the
    bound the Rust type imposes). -/
theorem C1_roundtrip_amended
    (dn ht hsh src kt ws asrc mt t0 : Str) (ts : List Str) (len : Nat)
    (hdn : '&' ∉ dn) (hht : '&' ∉ ht) (hhtc : ':' ∉ ht) (hhsh : '&' ∉ hsh)
    (hsrc : '&' ∉ src) (hkt : '&' ∉ kt) (hws : '&' ∉ ws) (hasrc : '&' ∉ asrc)
    (hmt : '&' ∉ mt) (hlen : len < 2 ^ 64) (htr : ∀ t ∈ t0 :: ts, '&' ∉ t) :
    Magnet.new (Magnet.render ⟨some dn, some ht, some hsh, some len, some src,
        t0 :: ts, some kt, some ws, some asrc, some mt⟩) =
      .ok ⟨some dn, some ht, some hsh, some len, some src, t0 :: ts,
        some kt, some ws, some asrc, some mt⟩ := by
  rw [render_eq]
  have hb : str "magnet:?" ++
        xtClause ⟨some dn, some ht, some hsh, some len, some src, t0 :: ts,
          some kt, some ws, some asrc, some mt⟩ ++
        tailClauses ⟨some dn, some ht, some hsh, some len, some src, t0 :: ts,
          some kt, some ws, some asrc, some mt⟩ =
      str "magnet:?" ++ ((str "xt=urn:" ++ ht ++ str ":" ++ hsh) ++
        prefAmp ((str "dn=" ++ dn) :: (str "xl=" ++ natRepr len) ::
          ((t0 :: ts).map (fun t => str "tr=" ++ t) ++
            [str "ws=" ++ ws, str "xs=" ++ src, str "kt=" ++ kt,
              str "as=" ++ asrc, str "mt=" ++ mt]))) := by
    rw [prefAmp_cons, prefAmp_cons, prefAmp_tr]
    simp only [xtClause, tailClauses, paramClause, xlClause, prefAmp_cons, prefAmp_nil,
      Option.getD_some, List.append_assoc, List.append_nil]
    rfl
  rw [hb]
  have hsw : startsWith (str "magnet:?" ++ ((str "xt=urn:" ++ ht ++ str ":" ++ hsh) ++
      prefAmp ((str "dn=" ++ dn) :: (str "xl=" ++ natRepr len) ::
        ((t0 :: ts).map (fun t => str "tr=" ++ t) ++
          [str "ws=" ++ ws, str "xs=" ++ src, str "kt=" ++ kt,
            str "as=" ++ asrc, str "mt=" ++ mt])))) (str "magnet:?") = true :=
    isPrefixOf_append _ _
  simp only [Magnet.new, hsw, if_true, Magnet.new_no_validation]
  rw [trimStartMatches_append _ _ (by decide)]
  have hnp : (str "magnet:?").isPrefixOf ((str "xt=urn:" ++ ht ++ str ":" ++ hsh) ++
      prefAmp ((str "dn=" ++ dn) :: (str "xl=" ++ natRepr len) ::
        ((t0 :: ts).map (fun t => str "tr=" ++ t) ++
          [str "ws=" ++ ws, str "xs=" ++ src, str "kt=" ++ kt,
            str "as=" ++ asrc, str "mt=" ++ mt]))) = false := rfl
  rw [trimStartMatches_of_not _ _ hnp]
  have hfree : ∀ f ∈ (str "dn=" ++ dn) :: (str "xl=" ++ natRepr len) ::
      ((t0 :: ts).map (fun t => str "tr=" ++ t) ++
        [str "ws=" ++ ws, str "xs=" ++ src, str "kt=" ++ kt,
          str "as=" ++ asrc, str "mt=" ++ mt]), '&' ∉ f := by
    intro f hf
    simp only [List.mem_cons, List.mem_append, List.mem_map] at hf
    rcases hf with rfl | rfl | ⟨t, ht2, rfl⟩ | rfl | rfl | rfl | rfl | rfl | hf
    · exact not_mem_append (by decide) hdn
    · exact not_mem_append (by decide) (not_amp_natRepr len)
    · exact not_mem_append (by decide) (htr t (List.mem_cons.mpr ht2))
    · exact not_mem_append (by decide) hws
    · exact not_mem_append (by decide) hsrc
    · exact not_mem_append (by decide) hkt
    · exact not_mem_append (by decide) hasrc
    · exact not_mem_append (by decide) hmt
    · simp at hf
  have hxtfree : '&' ∉ str "xt=urn:" ++ ht ++ str ":" ++ hsh :=
    not_mem_append (not_mem_append (not_mem_append (by decide) hht) (by decide)) hhsh
  rw [splitChar_prefixed _ hfree _ hxtfree]
  simp only [List.foldl_cons, List.foldl_append, List.foldl_nil]
  rw [applyParam_xt_good _ _ _ hhtc, applyParam_dn, applyParam_xl_good _ _ hlen,
    foldl_applyParam_tr, applyParam_ws, applyParam_xs, applyParam_kt, applyParam_asrc,
    applyParam_mt]
  rfl

/-- C1 witness: the amended round trip at a concrete fully-populated record
    with two trackers. -/
theorem C1_witness :
    ('&' ∉ str "Sintel") ∧ ('&' ∉ str "btih") ∧ (':' ∉ str "btih") ∧
      ('&' ∉ str "abc123") ∧ ('&' ∉ str "SRC") ∧ ('&' ∉ str "KT") ∧
      ('&' ∉ str "WS") ∧ ('&' ∉ str "AS") ∧ ('&' ∉ str "MT") ∧
      (1234 < 2 ^ 64) ∧ (∀ t ∈ [str "T1", str "T2"], '&' ∉ t) ∧
      Magnet.new (Magnet.render ⟨some (str "Sintel"), some (str "btih"),
          some (str "abc123"), some 1234, some (str "SRC"), [str "T1", str "T2"],
          some (str "KT"), some (str "WS"), some (str "AS"), some (str "MT")⟩) =
        .ok ⟨some (str "Sintel"), some (str "btih"), some (str "abc123"), some 1234,
          some (str "SRC"), [str "T1", str "T2"], some (str "KT"), some (str "WS"),
          some (str "AS"), some (str "MT")⟩ := by
  refine ⟨by decide, by decide, by decide, by decide, by decide, by decide, by decide,
    by decide, by decide, by decide, by decide, ?_⟩
  exact C1_roundtrip_amended (str "Sintel") (str "btih") (str "abc123") (str "SRC")
    (str "KT") (str "WS") (str "AS") (str "MT") (str "T1") [str "T2"] 1234
    (by decide) (by decide) (by decide) (by decide) (by decide) (by decide) (by decide)
    (by decide) (by decide) (by decide) (by decide)
